import Mathlib

/-!
Verification development for the java-structure-validator repository.

The repository has three relevant source files:
  * a parser module (second document of src/src/App.tsx, the lib/parser
    part): removeComments, extractClassBodies, parseJavaAttributes,
    parseJavaMethods, parseJavaClasses, parseJavaFile;
  * a tree comparator module (first document of src/unnamed/part_000,
    compare.ts): checkAttributeSignature, checkMethodSignature,
    compareParsedClasses returning ClassComparison nodes;
  * a string comparator module (src/unnamed/part_001): the older
    compareParsedClasses returning an Identical flag and error strings.

Strings are modelled as Lean Strings over their underlying character
lists.  The JavaScript regexes in the parser are hand-compiled into
deterministic scanners; each regex is simple enough that greedy matching
needs no backtracking except for the optional modifier group, whose
try-then-fallback behaviour is modelled explicitly.  JavaScript character
classes are modelled over ASCII, matching the \w class exactly; the \s
class is modelled by the common ASCII whitespace characters.
-/

namespace Parser

/-- JavaScript \w character class: ASCII letters, digits, underscore. -/
def wordChar (c : Char) : Bool :=
  c.isAlpha || c.isDigit || c = '_'

/-- Character class of the type token [\w<>[\]] in the attribute and
method regexes. -/
def typeChar (c : Char) : Bool :=
  wordChar c || c = '<' || c = '>' || c = '[' || c = ']'

/-- JavaScript \s character class (ASCII part). -/
def wsChar (c : Char) : Bool :=
  c = ' ' || c = '\t' || c = '\n' || c = '\r' || c = '\x0b' || c = '\x0c'

/-- Line terminators recognised by the multiline anchor of the
single-line-comment regex. -/
def isLineTerm (c : Char) : Bool :=
  c = '\n' || c = '\r'

/-- Whether the text contains two consecutive slashes, the start of a
single-line comment. -/
def hasDS : List Char → Bool
  | [] => false
  | [_] => false
  | a :: b :: r => (a = '/' && b = '/') || hasDS (b :: r)

/-- Whether the text contains a block-comment close marker. -/
def hasClose : List Char → Bool
  | [] => false
  | [_] => false
  | a :: b :: r => (a = '*' && b = '/') || hasClose (b :: r)

/-- Single-line-comment removal, modelling source.replace of the global
multiline regex matching two slashes followed by the rest of the line:
everything from a double slash up to (but not including) the next line
terminator is dropped.  The flag records whether the scanner is inside
a line comment. -/
def remLineAux (inC : Bool) : List Char → List Char
  | [] => []
  | [a] =>
    if inC then (if isLineTerm a then [a] else []) else [a]
  | a :: b :: r =>
    if inC then
      (if isLineTerm a then a :: remLineAux false (b :: r)
       else remLineAux true (b :: r))
    else
      (if a = '/' ∧ b = '/' then remLineAux true r
       else a :: remLineAux false (b :: r))

/-- Block-comment removal, modelling withoutLineComments.replace of the
global lazy block-comment regex: each open marker with a close marker
somewhere after it is removed together with everything up to the first
such close marker; an open marker with no close marker after it is not a
match, and since close markers only occur before it, nothing after it can
match either, so the remaining text is kept verbatim. -/
def remBlockAux (inB : Bool) : List Char → List Char
  | [] => []
  | [a] => if inB then [] else [a]
  | a :: b :: r =>
    if inB then
      (if a = '*' ∧ b = '/' then remBlockAux false r
       else remBlockAux true (b :: r))
    else
      (if a = '/' ∧ b = '*' then
        (if hasClose r then remBlockAux true r else a :: b :: r)
       else a :: remBlockAux false (b :: r))

/-- Function removeComments of the parser module: first strip
single-line comments, then strip block comments. -/
def removeComments (source : String) : String :=
  ⟨remBlockAux false (remLineAux false source.data)⟩

/-- No-match predicate for the block-comment regex: the first open
marker, if any, has no close marker after it (then close markers cannot
follow later open markers either, so the regex has no match at all). -/
def noMatchB : List Char → Bool
  | [] => true
  | [_] => true
  | a :: b :: r => if a = '/' ∧ b = '*' then !hasClose r else noMatchB (b :: r)

theorem strongListInd {P : List Char → Prop}
    (ih : ∀ s : List Char, (∀ t : List Char, t.length < s.length → P t) → P s) :
    ∀ s, P s := by
  have key : ∀ (n : Nat) (s : List Char), s.length ≤ n → P s := by
    intro n
    induction n with
    | zero => intro s hs; exact ih s (fun t ht => absurd (Nat.lt_of_lt_of_le ht hs) (Nat.not_lt_zero _))
    | succ n ihn =>
      intro s hs
      exact ih s (fun t ht => ihn t (Nat.le_of_lt_succ (Nat.lt_of_lt_of_le ht hs)))
  exact fun s => key s.length s le_rfl

theorem hasDS_tail {a : Char} {l : List Char} (h : hasDS (a :: l) = false) :
    hasDS l = false := by
  cases l with
  | nil => rfl
  | cons b r => simp [hasDS] at h; exact h.2

theorem remLineF_cons {c : Char} {cs : List Char}
    (h : c ≠ '/' ∨ cs.head? ≠ some '/') :
    remLineAux false (c :: cs) = c :: remLineAux false cs := by
  cases cs with
  | nil => simp [remLineAux]
  | cons b r =>
    have hnot : ¬(c = '/' ∧ b = '/') := by
      rcases h with h | h
      · exact fun hc => h hc.1
      · exact fun hc => h (by simp [hc.2])
    simp [remLineAux, hnot]

theorem remBlockF_cons {c : Char} {cs : List Char}
    (h : c ≠ '/' ∨ cs.head? ≠ some '*') :
    remBlockAux false (c :: cs) = c :: remBlockAux false cs := by
  cases cs with
  | nil => simp [remBlockAux]
  | cons b r =>
    have hnot : ¬(c = '/' ∧ b = '*') := by
      rcases h with h | h
      · exact fun hc => h hc.1
      · exact fun hc => h (by simp [hc.2])
    simp [remBlockAux, hnot]

theorem hasDS_remLine : ∀ (s : List Char) (m : Bool),
    hasDS (remLineAux m s) = false := by
  apply strongListInd (P := fun s => ∀ m, hasDS (remLineAux m s) = false)
  intro s ih m
  match s with
  | [] => cases m <;> rfl
  | [a] =>
    cases m with
    | false => simp [remLineAux, hasDS]
    | true =>
      by_cases ht : isLineTerm a = true
      · simp [remLineAux, ht, hasDS]
      · simp [remLineAux, ht, hasDS]
  | a :: b :: r =>
    cases m with
    | true =>
      by_cases ht : isLineTerm a = true
      · -- the terminator is kept; it is not a slash, so no new pair arises
        have ha : a ≠ '/' := by
          intro h; subst h; simp [isLineTerm] at ht
        have ihtail := ih (b :: r) (by simp only [List.length_cons]; omega) false
        simp only [remLineAux, ht, if_true]
        cases hrec : remLineAux false (b :: r) with
        | nil => simp [hasDS]
        | cons c l =>
          -- head of the recursive result follows a non-slash character
          simp [hasDS, ha, hrec ▸ ihtail]
      · simpa [remLineAux, ht] using ih (b :: r) (by simp only [List.length_cons]; omega) true
    | false =>
      by_cases hds : a = '/' ∧ b = '/'
      · simpa [remLineAux, hds] using ih r (by simp only [List.length_cons]; omega) true
      · simp only [remLineAux, hds, if_false]
        have ihtail := ih (b :: r) (by simp only [List.length_cons]; omega) false
        by_cases ha : a = '/'
        · have hb : b ≠ '/' := fun hb => hds ⟨ha, hb⟩
          rw [remLineF_cons (Or.inl hb)]
          simp [hasDS, ha, hb]
          rcases hrem : remLineAux false r with _ | ⟨c, l⟩
          · simp [hasDS]
          · have : hasDS (b :: remLineAux false r) = false := by
              rw [← remLineF_cons (Or.inl hb)]; exact ihtail
            rw [hrem] at this
            simpa [hasDS, hb] using this
        · cases hrec : remLineAux false (b :: r) with
          | nil => simp [hasDS]
          | cons c l => simp [hasDS, ha, hrec ▸ ihtail]

theorem remLine_id : ∀ s : List Char, hasDS s = false →
    remLineAux false s = s := by
  intro s
  induction s with
  | nil => intro _; rfl
  | cons a t iht =>
    intro h
    cases t with
    | nil => simp [remLineAux]
    | cons b r =>
      have hnot : ¬(a = '/' ∧ b = '/') := by
        intro hc; simp [hasDS, hc.1, hc.2] at h
      simp [remLineAux, hnot, iht (hasDS_tail h)]

theorem hasDS_remBlock : ∀ (s : List Char) (m : Bool), hasDS s = false →
    hasDS (remBlockAux m s) = false := by
  apply strongListInd
    (P := fun s => ∀ m, hasDS s = false → hasDS (remBlockAux m s) = false)
  intro s ih m h
  match s with
  | [] => cases m <;> rfl
  | [a] => cases m <;> simp [remBlockAux, hasDS]
  | a :: b :: r =>
    have htail : hasDS (b :: r) = false := hasDS_tail h
    have hr : hasDS r = false := hasDS_tail htail
    cases m with
    | true =>
      by_cases hcl : a = '*' ∧ b = '/'
      · simpa [remBlockAux, hcl] using ih r (by simp only [List.length_cons]; omega) false hr
      · simpa [remBlockAux, hcl] using ih (b :: r) (by simp only [List.length_cons]; omega) true htail
    | false =>
      by_cases hop : a = '/' ∧ b = '*'
      · by_cases hc : hasClose r = true
        · simpa [remBlockAux, hop, hc] using ih r (by simp only [List.length_cons]; omega) true hr
        · obtain ⟨ha, hb⟩ := hop
          subst ha; subst hb
          simpa [remBlockAux, hc] using h
      · have hstep : remBlockAux false (a :: b :: r) = a :: remBlockAux false (b :: r) := by
          simp [remBlockAux, hop]
        rw [hstep]
        have ihtail := ih (b :: r) (by simp only [List.length_cons]; omega) false htail
        by_cases ha : a = '/'
        · have hb : b ≠ '/' := by
            intro hb; simp [hasDS, ha, hb] at h
          rw [remBlockF_cons (Or.inl hb)]
          have : hasDS (b :: remBlockAux false r) = false := by
            rw [← remBlockF_cons (Or.inl hb)]; exact ihtail
          simpa [hasDS, hb] using this
        · cases hrec : remBlockAux false (b :: r) with
          | nil => simp [hasDS]
          | cons c l => simp [hasDS, ha, hrec ▸ ihtail]

theorem noMatchB_remBlock : ∀ (s : List Char) (m : Bool), hasDS s = false →
    noMatchB (remBlockAux m s) = true := by
  apply strongListInd
    (P := fun s => ∀ m, hasDS s = false → noMatchB (remBlockAux m s) = true)
  intro s ih m h
  match s with
  | [] => cases m <;> rfl
  | [a] => cases m <;> simp [remBlockAux, noMatchB]
  | a :: b :: r =>
    have htail : hasDS (b :: r) = false := hasDS_tail h
    have hr : hasDS r = false := hasDS_tail htail
    cases m with
    | true =>
      by_cases hcl : a = '*' ∧ b = '/'
      · simpa [remBlockAux, hcl] using ih r (by simp only [List.length_cons]; omega) false hr
      · simpa [remBlockAux, hcl] using ih (b :: r) (by simp only [List.length_cons]; omega) true htail
    | false =>
      by_cases hop : a = '/' ∧ b = '*'
      · by_cases hc : hasClose r = true
        · simpa [remBlockAux, hop, hc] using ih r (by simp only [List.length_cons]; omega) true hr
        · obtain ⟨ha, hb⟩ := hop
          subst ha; subst hb
          simp [remBlockAux, hc, noMatchB]
      · have hstep : remBlockAux false (a :: b :: r) = a :: remBlockAux false (b :: r) := by
          simp [remBlockAux, hop]
        rw [hstep]
        have ihtail := ih (b :: r) (by simp only [List.length_cons]; omega) false htail
        by_cases ha : a = '/'
        · have hb : b ≠ '/' := by
            intro hb; simp [hasDS, ha, hb] at h
          have hbstar : b ≠ '*' := fun hb => hop ⟨ha, hb⟩
          have heq : remBlockAux false (b :: r) = b :: remBlockAux false r :=
            remBlockF_cons (Or.inl hb)
          rw [heq]
          have hx : noMatchB (b :: remBlockAux false r) = true := heq ▸ ihtail
          simpa [noMatchB, hbstar, ha] using hx
        · cases hrec : remBlockAux false (b :: r) with
          | nil => simp [noMatchB]
          | cons c l => simp [noMatchB, ha, hrec ▸ ihtail]

theorem noMatchB_id : ∀ s : List Char, noMatchB s = true →
    remBlockAux false s = s := by
  intro s
  induction s with
  | nil => intro _; rfl
  | cons a t iht =>
    intro h
    cases t with
    | nil => simp [remBlockAux]
    | cons b r =>
      by_cases hop : a = '/' ∧ b = '*'
      · have : hasClose r = false := by
          have := h; simp [noMatchB, hop] at this; exact this
        simp [remBlockAux, hop, this]
      · have htail : noMatchB (b :: r) = true := by
          simpa [noMatchB, hop] using h
        simp [remBlockAux, hop, iht htail]

theorem remLine_count : ∀ (s : List Char) (m : Bool),
    (remLineAux m s).count '\n' = s.count '\n' := by
  apply strongListInd (P := fun s => ∀ m, (remLineAux m s).count '\n' = s.count '\n')
  intro s ih m
  match s with
  | [] => cases m <;> rfl
  | [a] =>
    cases m with
    | false => rfl
    | true =>
      by_cases ht : isLineTerm a = true
      · simp [remLineAux, ht]
      · have ha : ¬('\n' = a) := by
          intro hh; rw [← hh] at ht; simp [isLineTerm] at ht
        simp [remLineAux, ht, List.count_cons, ha]
  | a :: b :: r =>
    cases m with
    | true =>
      by_cases ht : isLineTerm a = true
      · simp [remLineAux, ht, List.count_cons,
          ih (b :: r) (by simp only [List.length_cons]; omega) false]
      · have ha : ¬('\n' = a) := by
          intro hh; rw [← hh] at ht; simp [isLineTerm] at ht
        simp [remLineAux, ht, List.count_cons, ha,
          ih (b :: r) (by simp only [List.length_cons]; omega) true]
    | false =>
      by_cases hds : a = '/' ∧ b = '/'
      · obtain ⟨ha, hb⟩ := hds
        subst ha; subst hb
        simp [remLineAux, List.count_cons,
          ih r (by simp only [List.length_cons]; omega) true]
      · simp [remLineAux, hds, List.count_cons,
          ih (b :: r) (by simp only [List.length_cons]; omega) false]

theorem remBlock_count_le : ∀ (s : List Char) (m : Bool),
    (remBlockAux m s).count '\n' ≤ s.count '\n' := by
  apply strongListInd (P := fun s => ∀ m, (remBlockAux m s).count '\n' ≤ s.count '\n')
  intro s ih m
  match s with
  | [] => cases m <;> simp [remBlockAux]
  | [a] =>
    cases m with
    | false => exact le_rfl
    | true => simp [remBlockAux]
  | a :: b :: r =>
    have ihr := ih r (by simp only [List.length_cons]; omega)
    have ihbr := ih (b :: r) (by simp only [List.length_cons]; omega)
    cases m with
    | true =>
      by_cases hcl : a = '*' ∧ b = '/'
      · calc (remBlockAux true (a :: b :: r)).count '\n'
            = (remBlockAux false r).count '\n' := by simp [remBlockAux, hcl]
          _ ≤ r.count '\n' := ihr false
          _ ≤ (a :: b :: r).count '\n' := by simp only [List.count_cons]; omega
      · calc (remBlockAux true (a :: b :: r)).count '\n'
            = (remBlockAux true (b :: r)).count '\n' := by simp [remBlockAux, hcl]
          _ ≤ (b :: r).count '\n' := ihbr true
          _ ≤ (a :: b :: r).count '\n' := by simp only [List.count_cons]; omega
    | false =>
      by_cases hop : a = '/' ∧ b = '*'
      · by_cases hc : hasClose r = true
        · calc (remBlockAux false (a :: b :: r)).count '\n'
              = (remBlockAux true r).count '\n' := by simp [remBlockAux, hop, hc]
            _ ≤ r.count '\n' := ihr true
            _ ≤ (a :: b :: r).count '\n' := by simp only [List.count_cons]; omega
        · have : remBlockAux false (a :: b :: r) = a :: b :: r := by
            obtain ⟨ha, hb⟩ := hop; subst ha; subst hb; simp [remBlockAux, hc]
          rw [this]
      · have hstep : remBlockAux false (a :: b :: r) = a :: remBlockAux false (b :: r) := by
          simp [remBlockAux, hop]
        rw [hstep]
        have hle := ihbr false
        simp only [List.count_cons] at hle ⊢
        omega

end Parser

/-- C7: comment stripping is idempotent: for every input string,
stripping comments twice yields the same result as stripping once.  The
key invariants are that line-comment removal leaves no double slash in
the text, double-slash-free text is a fixed point of line-comment
removal, block-comment removal of double-slash-free text leaves no
double slash and no matchable block comment, and text with no matchable
block comment is a fixed point of block-comment removal. -/
theorem removeComments_idempotent (s : String) :
    Parser.removeComments (Parser.removeComments s) = Parser.removeComments s := by
  have h0 : Parser.hasDS (Parser.remLineAux false s.data) = false :=
    Parser.hasDS_remLine s.data false
  have h1 : Parser.hasDS
      (Parser.remBlockAux false (Parser.remLineAux false s.data)) = false :=
    Parser.hasDS_remBlock _ false h0
  have h2 := Parser.remLine_id _ h1
  have h3 : Parser.noMatchB
      (Parser.remBlockAux false (Parser.remLineAux false s.data)) = true :=
    Parser.noMatchB_remBlock _ false h0
  have h4 := Parser.noMatchB_id _ h3
  simp [Parser.removeComments, h2, h4]

/-- C8 counterexample: the newline count is not always preserved by
comment stripping.  A block comment containing a newline is removed
together with that newline, so the input consisting of exactly one such
comment has one newline while its stripped output has none. -/
theorem removeComments_newline_count_counterexample :
    Parser.removeComments "/*\n*/" = "" ∧
    ("/*\n*/" : String).data.count '\n' = 1 ∧
    ("" : String).data.count '\n' = 0 := by
  refine ⟨by decide, by decide, by decide⟩

/-- C8 (amended): comment stripping never inserts characters, and the
single-line-comment stage preserves every newline, so the newline count
of the output never exceeds that of the input; newlines are lost exactly
when a block comment spans a line break, so equality does not hold in
general (see the counterexample). -/
theorem removeComments_newline_bound (s : String) :
    (Parser.remLineAux false s.data).count '\n' = s.data.count '\n' ∧
    (Parser.removeComments s).data.count '\n' ≤ s.data.count '\n' := by
  constructor
  · exact Parser.remLine_count s.data false
  · calc (Parser.removeComments s).data.count '\n'
        = (Parser.remBlockAux false (Parser.remLineAux false s.data)).count '\n' := rfl
      _ ≤ (Parser.remLineAux false s.data).count '\n' :=
        Parser.remBlock_count_le _ false
      _ = s.data.count '\n' := Parser.remLine_count s.data false

namespace Parser

/-- Interface AttributeInfo of the parser module.  The modifier union
type of the source (public, private, protected, default) is modelled by
its underlying string, exactly as the source compares it. -/
structure AttributeInfo where
  modifier : String
  type : String
  name : String
deriving DecidableEq, Repr

/-- Interface ParameterInfo of the parser module. -/
structure ParameterInfo where
  type : String
  name : String
deriving DecidableEq, Repr

/-- Interface MethodInfo of the parser module. -/
structure MethodInfo where
  modifier : String
  returnType : String
  methodName : String
  parameters : List ParameterInfo
deriving DecidableEq, Repr

/-- Interface ClassInfo of the parser module.  The optional field named
extends in the source is called extendsFrom here because extends is a
Lean keyword; the extractor already calls it extendsFrom. -/
structure ClassInfo where
  name : String
  extendsFrom : Option String
  attributes : List AttributeInfo
  methods : List MethodInfo
deriving DecidableEq, Repr

/-- Interface ParseResult of the parser module. -/
structure ParseResult where
  classes : List ClassInfo
  errors : List String
deriving DecidableEq, Repr

/-- Attempt to match one access-modifier literal followed by mandatory
whitespace at the head of the text, returning the remainder after the
whitespace.  This models the group matching a modifier keyword and
one-or-more whitespace in the attribute and method regexes. -/
def tryMod (lit : List Char) (cs : List Char) : Option (List Char) :=
  if cs.take lit.length = lit then
    let r := cs.drop lit.length
    if (r.takeWhile wsChar).isEmpty then none else some (r.dropWhile wsChar)
  else none

/-- Try the three modifier alternatives in the order of the regex
alternation.  At most one literal can match at a given position since no
modifier keyword is a prefix of another. -/
def tryMods (cs : List Char) : Option (String × List Char) :=
  match tryMod "public".data cs with
  | some r => some ("public", r)
  | none =>
    match tryMod "private".data cs with
    | some r => some ("private", r)
    | none =>
      match tryMod "protected".data cs with
      | some r => some ("protected", r)
      | none => none

/-- Core of the attribute regex after the optional modifier group: a
type token, whitespace, a name token, optional whitespace, and a
semicolon.  Greedy matching is deterministic here because the type and
name character classes are disjoint from whitespace and do not contain
the semicolon, so no backtracking can succeed where the greedy pass
fails.  Returns the captured type and name and the text after the
semicolon. -/
def matchAttrCore (cs : List Char) : Option (String × String × List Char) :=
  let t := cs.takeWhile typeChar
  if t.isEmpty then none else
  let r1 := cs.dropWhile typeChar
  if (r1.takeWhile wsChar).isEmpty then none else
  let r2 := r1.dropWhile wsChar
  let n := r2.takeWhile wordChar
  if n.isEmpty then none else
  let r3 := r2.dropWhile wordChar
  match r3.dropWhile wsChar with
  | ';' :: rest => some (⟨t⟩, ⟨n⟩, rest)
  | _ => none

/-- The attribute regex matched at the current position.  The optional
modifier group is greedy: if a modifier literal matches here, the rest
of the pattern is tried after it, and on failure the whole pattern is
retried with the group skipped (then the modifier word itself can be
captured as the type token). -/
def matchAttrAt (cs : List Char) : Option (AttributeInfo × List Char) :=
  match tryMods cs with
  | some (mo, r) =>
    match matchAttrCore r with
    | some (t, n, rest) => some (⟨mo, t, n⟩, rest)
    | none =>
      match matchAttrCore cs with
      | some (t, n, rest) => some (⟨"default", t, n⟩, rest)
      | none => none
  | none =>
    match matchAttrCore cs with
    | some (t, n, rest) => some (⟨"default", t, n⟩, rest)
    | none => none

/-- The global exec loop of parseJavaAttributes: find the leftmost match
at or after the current position, emit a record unless its captured type
token is the literal return, and continue after the matched text.  Fuel
bounds the recursion; one unit per character suffices because a match
always consumes at least one character. -/
def scanAttrs : Nat → List Char → List AttributeInfo
  | 0, _ => []
  | _, [] => []
  | fuel + 1, c :: cs =>
    match matchAttrAt (c :: cs) with
    | some (a, rest) =>
      (if a.type ≠ "return" then [a] else []) ++ scanAttrs fuel rest
    | none => scanAttrs fuel cs

/-- Function parseJavaAttributes of the parser module. -/
def parseJavaAttributes (classBody : String) : List AttributeInfo :=
  scanAttrs classBody.data.length classBody.data

/-- Whitespace tokens of a string: split on whitespace runs, dropping
empty fragments.  For an already-trimmed string this is exactly the
JavaScript split on the whitespace regex used for method parameters. -/
def wsTokens (fuel : Nat) (cs : List Char) : List String :=
  match fuel, cs with
  | 0, _ => []
  | _, [] => []
  | fuel + 1, c :: cs =>
    if wsChar c then wsTokens fuel cs
    else
      let tok := (c :: cs).takeWhile (fun d => !wsChar d)
      let rest := (c :: cs).dropWhile (fun d => !wsChar d)
      (⟨tok⟩ : String) :: wsTokens fuel rest

/-- Trim whitespace from both ends of a character list, modelling the
JavaScript trim calls. -/
def trimWs (cs : List Char) : List Char :=
  ((cs.dropWhile wsChar).reverse.dropWhile wsChar).reverse

/-- Parameter-fragment parsing of parseJavaMethods: split the fragment
into whitespace tokens, drop a leading final keyword, skip the fragment
when fewer than two tokens remain, otherwise the last token is the name
and the other tokens joined by single spaces are the type. -/
def parseParam (p : String) : Option ParameterInfo :=
  let parts := wsTokens p.data.length p.data
  let parts := if parts.head? = some "final" then parts.tail else parts
  if parts.length < 2 then none
  else
    let type := " ".intercalate (parts.dropLast)
    match parts.getLast? with
    | some name => if type ≠ "" ∧ name ≠ "" then some ⟨type, name⟩ else none
    | none => none

/-- Parameter-list parsing of parseJavaMethods: trim the captured list,
split on commas, trim fragments, drop empty ones, and parse each
fragment. -/
def parseParams (paramsStr : String) : List ParameterInfo :=
  let s : String := ⟨trimWs paramsStr.data⟩
  if s = "" then []
  else
    ((s.splitOn ",").map (fun p => (⟨trimWs p.data⟩ : String))
      |>.filter (fun p => p.length > 0)
      |>.filterMap parseParam)

/-- Core of the method regex after the optional modifier group: a
return-type token, whitespace, a name token, optional whitespace, a
parenthesized parameter capture (any characters except a closing
parenthesis), and the closing parenthesis, followed by the lookahead of
optional whitespace and an opening brace, which is checked but not
consumed.  Returns the captures and the text right after the closing
parenthesis. -/
def matchMethodCore (cs : List Char) :
    Option (String × String × String × List Char) :=
  let t := cs.takeWhile typeChar
  if t.isEmpty then none else
  let r1 := cs.dropWhile typeChar
  if (r1.takeWhile wsChar).isEmpty then none else
  let r2 := r1.dropWhile wsChar
  let n := r2.takeWhile wordChar
  if n.isEmpty then none else
  let r3 := r2.dropWhile wordChar
  match r3.dropWhile wsChar with
  | '(' :: r5 =>
    let ps := r5.takeWhile (fun d => d ≠ ')')
    (match r5.dropWhile (fun d => d ≠ ')') with
     | ')' :: r6 =>
       if (r6.dropWhile wsChar).head? = some '{' then
         some (⟨t⟩, ⟨n⟩, ⟨ps⟩, r6)
       else none
     | _ => none)
  | _ => none

/-- The method regex matched at the current position, with the same
greedy optional modifier group as the attribute regex. -/
def matchMethodAt (cs : List Char) : Option (MethodInfo × List Char) :=
  match tryMods cs with
  | some (mo, r) =>
    match matchMethodCore r with
    | some (t, n, ps, rest) => some (⟨mo, t, n, parseParams ps⟩, rest)
    | none =>
      match matchMethodCore cs with
      | some (t, n, ps, rest) => some (⟨"default", t, n, parseParams ps⟩, rest)
      | none => none
  | none =>
    match matchMethodCore cs with
    | some (t, n, ps, rest) => some (⟨"default", t, n, parseParams ps⟩, rest)
    | none => none

/-- The global exec loop of parseJavaMethods.  The lookahead brace is
not consumed, so scanning continues right after the closing
parenthesis. -/
def scanMethods : Nat → List Char → List MethodInfo
  | 0, _ => []
  | _, [] => []
  | fuel + 1, c :: cs =>
    match matchMethodAt (c :: cs) with
    | some (m, rest) => m :: scanMethods fuel rest
    | none => scanMethods fuel cs

/-- Function parseJavaMethods of the parser module. -/
def parseJavaMethods (classBody : String) : List MethodInfo :=
  scanMethods classBody.data.length classBody.data

/-- One extracted class declaration header with its body text. -/
structure ClassDecl where
  name : String
  extendsFrom : Option String
  body : String
deriving DecidableEq, Repr

/-- The class-header regex matched at the current position: the literal
word class, whitespace, a name token, an optional group of whitespace,
the literal extends, whitespace and a superclass token, then optional
whitespace and an opening brace.  The optional group is greedy with
fallback: if it matches but the brace does not follow, the whole
position is retried without the group.  Returns the name, the optional
superclass and the text right after the opening brace. -/
def matchClassAt (cs : List Char) : Option (String × Option String × List Char) :=
  if cs.take 5 = "class".data then
    let r := cs.drop 5
    if (r.takeWhile wsChar).isEmpty then none else
    let r1 := r.dropWhile wsChar
    let n := r1.takeWhile wordChar
    if n.isEmpty then none else
    let r2 := r1.dropWhile wordChar
    let tryExt : Option (String × List Char) :=
      if (r2.takeWhile wsChar).isEmpty then none else
      let r3 := r2.dropWhile wsChar
      if r3.take 7 = "extends".data then
        let r4 := r3.drop 7
        if (r4.takeWhile wsChar).isEmpty then none else
        let r5 := r4.dropWhile wsChar
        let e := r5.takeWhile wordChar
        if e.isEmpty then none else
        let r6 := r5.dropWhile wordChar
        match r6.dropWhile wsChar with
        | '{' :: r7 => some (⟨e⟩, r7)
        | _ => none
      else none
    match tryExt with
    | some (e, r7) => some (⟨n⟩, some e, r7)
    | none =>
      match r2.dropWhile wsChar with
      | '{' :: r7 => some (⟨n⟩, none, r7)
      | _ => none
  else none

/-- Brace balancing of extractClassBodies: starting just after the
opening brace with depth one, walk the remaining source, and return the
characters strictly between the braces, or none when the depth never
returns to zero before the end of the source (the unmatched-braces
case, reported to the console and dropped by the extractor). -/
def findBody : List Char → Nat → Option (List Char)
  | [], _ => none
  | '{' :: cs, d => (findBody cs (d + 1)).map (fun b => '{' :: b)
  | '}' :: cs, d => if d = 1 then some [] else (findBody cs (d - 1)).map (fun b => '}' :: b)
  | c :: cs, d => (findBody cs d).map (fun b => c :: b)

/-- The exec loop of extractClassBodies: find the leftmost class-header
match, balance braces over the whole remaining source to extract the
trimmed body (dropping the class when the braces are unmatched), and in
either case continue scanning right after the opening brace of the
match, which is where the regex lastIndex points. -/
def scanClasses : Nat → List Char → List ClassDecl
  | 0, _ => []
  | _, [] => []
  | fuel + 1, c :: cs =>
    match matchClassAt (c :: cs) with
    | some (n, ext, rest) =>
      (match findBody rest 1 with
       | some body => [ClassDecl.mk n ext ⟨trimWs body⟩]
       | none => []) ++ scanClasses fuel rest
    | none => scanClasses fuel cs

/-- Function extractClassBodies of the parser module. -/
def extractClassBodies (javaSource : String) : List ClassDecl :=
  scanClasses javaSource.data.length javaSource.data

/-- Function parseJavaClasses of the parser module: extract class
bodies, report a single advisory when none is found, and otherwise run
the member parsers over each body.  No other error string is ever
produced. -/
def parseJavaClasses (javaSource : String) : ParseResult :=
  let classes := extractClassBodies javaSource
  if classes.isEmpty then
    { classes := [], errors := ["No class declarations found."] }
  else
    { classes := classes.map (fun cd =>
        { name := cd.name
          extendsFrom := cd.extendsFrom
          attributes := parseJavaAttributes cd.body
          methods := parseJavaMethods cd.body })
      errors := [] }

/-- Function parseJavaFile of the parser module: strip comments, then
parse.  The try-catch of the source is unreachable in this total
model. -/
def parseJavaFile (source : String) : ParseResult :=
  parseJavaClasses (removeComments source)

end Parser

/-- Split a character list on a separator character, modelling the
JavaScript string split on the one-character bar string used for the
signature tuples: the pieces between separators are returned in order,
including empty pieces.  Fuel bounds the recursion; the length of the
input suffices. -/
def splitOnChar (sep : Char) : Nat → List Char → List String
  | 0, cs => [⟨cs⟩]
  | fuel + 1, cs =>
    let tok := cs.takeWhile (fun c => c ≠ sep)
    match cs.dropWhile (fun c => c ≠ sep) with
    | [] => [⟨tok⟩]
    | _ :: rest => (⟨tok⟩ : String) :: splitOnChar sep fuel rest

/-- Split a string on the bar separator, as the source's split calls on
the joined signature strings. -/
def splitBar (s : String) : List String :=
  splitOnChar '|' s.data.length s.data

/-- First-occurrence deduplication, modelling the iteration order of a
JavaScript Set built from an array: every element is kept once, in the
order of its first occurrence. -/
def dedupFirst (l : List String) : List String :=
  go [] l
where
  go : List String → List String → List String
    | _, [] => []
    | seen, x :: xs =>
      if x ∈ seen then go seen xs else x :: go (x :: seen) xs

theorem dedupFirst.go_mem (seen l : List String) (x : String) :
    x ∈ dedupFirst.go seen l ↔ x ∈ l ∧ x ∉ seen := by
  induction l generalizing seen with
  | nil => simp [go]
  | cons y ys ih =>
    by_cases hy : y ∈ seen
    · simp only [go, if_pos hy, ih]
      constructor
      · exact fun ⟨h1, h2⟩ => ⟨List.mem_cons_of_mem _ h1, h2⟩
      · rintro ⟨h1, h2⟩
        rcases List.mem_cons.mp h1 with h | h
        · exact absurd (h ▸ hy) h2
        · exact ⟨h, h2⟩
    · simp only [go, if_neg hy]
      constructor
      · intro h
        rcases List.mem_cons.mp h with h | h
        · exact ⟨h ▸ List.mem_cons_self _ _, h ▸ hy⟩
        · have := (ih (y :: seen)).mp h
          exact ⟨List.mem_cons_of_mem _ this.1,
            fun hx => this.2 (List.mem_cons_of_mem _ hx)⟩
      · rintro ⟨h1, h2⟩
        rcases List.mem_cons.mp h1 with h | h
        · exact h ▸ List.mem_cons_self _ _
        · by_cases hxy : x = y
          · exact hxy ▸ List.mem_cons_self _ _
          · exact List.mem_cons_of_mem _
              ((ih (y :: seen)).mpr ⟨h, by
                intro hx
                rcases List.mem_cons.mp hx with h' | h'
                · exact hxy h'
                · exact h2 h'⟩)

theorem dedupFirst_mem (l : List String) (x : String) :
    x ∈ dedupFirst l ↔ x ∈ l := by
  rw [dedupFirst, dedupFirst.go_mem]
  simp

namespace Compare

open Parser

/-- Interface AttributeComparison of the tree comparator. -/
structure AttributeComparison where
  message : String
  color : String
  count : Option Nat
deriving DecidableEq, Repr

/-- Interface MethodComparison of the tree comparator. -/
structure MethodComparison where
  message : String
  color : String
  count : Option Nat
deriving DecidableEq, Repr

/-- Interface InheritanceComparison of the tree comparator. -/
structure InheritanceComparison where
  message : String
  color : String
deriving DecidableEq, Repr

/-- Interface ClassComparison of the tree comparator.  The literal type
field always holds the string class; the children field of the source is
never assigned anywhere, so it is omitted here.  The optional extends
field is called extendsFrom, as in ClassInfo. -/
structure ClassComparison where
  name : String
  type : String
  color : String
  attributes : List AttributeComparison
  methods : List MethodComparison
  inheritance : Option InheritanceComparison
  extendsFrom : Option String
deriving DecidableEq, Repr

/-- One reduced attribute signature with its occurrence count. -/
structure AttrSig where
  modifier : String
  type : String
  count : Nat
deriving DecidableEq, Repr

/-- One reduced method signature with its occurrence count. -/
structure MethodSig where
  modifier : String
  returnType : String
  parameters : String
  count : Nat
deriving DecidableEq, Repr

/-- Function checkAttributeSignature of the tree comparator: build the
joined signature strings, deduplicate them in first-occurrence order
through a Set, split each back on the bar character and count the
attributes matching the two recovered fields. -/
def checkAttributeSignature (attributes : List AttributeInfo) : List AttrSig :=
  (dedupFirst (attributes.map (fun a => a.modifier ++ "|" ++ a.type))).map
    (fun signature =>
      let parts := splitBar signature
      let sigMod := parts.getD 0 ""
      let sigType := parts.getD 1 ""
      { modifier := sigMod
        type := sigType
        count := (attributes.filter
          (fun a => a.modifier == sigMod && a.type == sigType)).length })

/-- Function checkMethodSignature of the tree comparator: the signature
joins the modifier, the return type and the comma-joined parameter
types; the method name is deliberately not part of it. -/
def checkMethodSignature (methods : List MethodInfo) : List MethodSig :=
  (dedupFirst (methods.map (fun m =>
      m.modifier ++ "|" ++ m.returnType ++ "|"
        ++ String.intercalate "," (m.parameters.map (fun p => p.type))))).map
    (fun signature =>
      let parts := splitBar signature
      let sigMod := parts.getD 0 ""
      let sigReturn := parts.getD 1 ""
      let sigParam := parts.getD 2 ""
      { modifier := sigMod
        returnType := sigReturn
        parameters := sigParam
        count := (methods.filter (fun m =>
          m.modifier == sigMod && m.returnType == sigReturn &&
            String.intercalate "," (m.parameters.map (fun p => p.type)) == sigParam)).length })

/-- The missing-class branch of compareParsedClasses (the bClass
undefined case): a fully red node in which every attribute and method
signature of the reference class is pushed as a red added entry carrying
its count, and no comparison against the candidate side happens. -/
def compareMissing (aClass : ClassInfo) : ClassComparison :=
  { name := aClass.name
    type := "class"
    color := "text-red-500"
    attributes := (checkAttributeSignature aClass.attributes).map (fun s =>
      { message := "+ " ++ s.modifier ++ " " ++ s.type
          ++ " (Count: " ++ toString s.count ++ ")"
        color := "text-red-500"
        count := some s.count })
    methods := (checkMethodSignature aClass.methods).map (fun s =>
      let tempMod := if s.modifier ≠ "default" then s.modifier ++ " " else ""
      { message := "+ " ++ tempMod ++ s.returnType ++ "(" ++ s.parameters
          ++ ") (Count: " ++ toString s.count ++ ")"
        color := "text-red-500"
        count := some s.count })
    inheritance := none
    extendsFrom := aClass.extendsFrom }

/-- Textual description of one side of the inheritance comparison. -/
def extDesc : Option String → String
  | some e => "extends " ++ "'" ++ e ++ "'"
  | none => "didn" ++ "'" ++ "t extend"

/-- One attribute diff entry of the found-class branch, for one
signature of the reference class. -/
def attrEntry (bSig : List AttrSig) (s : AttrSig) : AttributeComparison :=
  match bSig.find? (fun x => x.modifier == s.modifier && x.type == s.type) with
  | none =>
    { message := "- " ++ s.modifier ++ " " ++ s.type
      color := "text-red-500"
      count := none }
  | some m =>
    if m.count < s.count then
      { message := "- " ++ s.modifier ++ " " ++ s.type ++ " (Teacher ["
          ++ toString s.count ++ "] x Student [" ++ toString m.count ++ "])"
        color := "text-red-500"
        count := none }
    else if m.count > s.count then
      { message := "~ " ++ s.modifier ++ " " ++ s.type ++ " (Teacher ["
          ++ toString s.count ++ "] x Student [" ++ toString m.count ++ "])"
        color := "text-yellow-500"
        count := none }
    else
      { message := "+ " ++ s.modifier ++ " " ++ s.type
          ++ " (Count: " ++ toString s.count ++ ")"
        color := "text-green-500"
        count := some s.count }

/-- One method diff entry of the found-class branch, for one signature
of the reference class. -/
def methodEntry (bSig : List MethodSig) (s : MethodSig) : MethodComparison :=
  let tempMod := if s.modifier ≠ "default" then s.modifier ++ " " else ""
  match bSig.find? (fun x => x.modifier == s.modifier &&
      x.returnType == s.returnType && x.parameters == s.parameters) with
  | none =>
    { message := "- " ++ tempMod ++ s.returnType ++ "(" ++ s.parameters ++ ")"
      color := "text-red-500"
      count := none }
  | some m =>
    if m.count < s.count then
      { message := "- " ++ tempMod ++ s.returnType ++ "(" ++ s.parameters
          ++ ") (Teacher [" ++ toString s.count ++ "] x Student ["
          ++ toString m.count ++ "])"
        color := "text-red-500"
        count := none }
    else if m.count > s.count then
      { message := "~ " ++ tempMod ++ s.returnType ++ "(" ++ s.parameters
          ++ ") (Teacher [" ++ toString s.count ++ "] x Student ["
          ++ toString m.count ++ "])"
        color := "text-yellow-500"
        count := none }
    else
      { message := "+ " ++ tempMod ++ s.returnType ++ "(" ++ s.parameters
          ++ ") (Count: " ++ toString s.count ++ ")"
        color := "text-green-500"
        count := some s.count }

/-- The found-class branch of compareParsedClasses: the node color is
red exactly when the extends values differ (the inheritance check is the
only place the loop ever changes the node color); every signature of the
reference class contributes exactly one attribute or method entry. -/
def compareFound (aClass bClass : ClassInfo) : ClassComparison :=
  { name := aClass.name
    type := "class"
    color := if aClass.extendsFrom ≠ bClass.extendsFrom
      then "text-red-500" else "text-green-500"
    attributes := (checkAttributeSignature aClass.attributes).map
      (attrEntry (checkAttributeSignature bClass.attributes))
    methods := (checkMethodSignature aClass.methods).map
      (methodEntry (checkMethodSignature bClass.methods))
    inheritance := if aClass.extendsFrom ≠ bClass.extendsFrom
      then some
        { message := "| Teacher " ++ extDesc aClass.extendsFrom
            ++ " vs Student " ++ extDesc bClass.extendsFrom
          color := "text-red-500" }
      else none
    extendsFrom := aClass.extendsFrom }

/-- The body of the comparison loop for one class name: the first
reference class and the first candidate class with that name select the
missing or found branch.  The lookup in the reference list never fails
because the names come from that list. -/
def nodeFor (a b : List ClassInfo) (className : String) : List ClassComparison :=
  match a.find? (fun c => c.name == className) with
  | none => []
  | some aClass =>
    match b.find? (fun c => c.name == className) with
    | none => [compareMissing aClass]
    | some bClass => [compareFound aClass bClass]

/-- Function compareParsedClasses of the tree comparator: iterate the
deduplicated reference class names in first-occurrence order and emit
one node per name. -/
def compareParsedClasses (a b : List ClassInfo) : List ClassComparison :=
  (dedupFirst (a.map (fun c => c.name))).flatMap (nodeFor a b)

theorem nodeFor_singleton (a b : List ClassInfo) (n : String)
    (hn : n ∈ a.map (fun c => c.name)) :
    ∃ nd, nodeFor a b n = [nd] ∧ nd.name = n := by
  obtain ⟨aC, haC, hname⟩ : ∃ aC ∈ a, aC.name = n := by
    simpa using hn
  have hsome : (a.find? (fun c => c.name == n)).isSome := by
    rw [List.find?_isSome]
    exact ⟨aC, haC, by simp [hname]⟩
  obtain ⟨aC', haC'⟩ := Option.isSome_iff_exists.mp hsome
  have hname' : aC'.name = n := by
    have := List.find?_some haC'
    simpa using this
  cases hb : b.find? (fun c => c.name == n) with
  | none =>
    exact ⟨compareMissing aC', by simp [nodeFor, haC', hb, compareMissing, hname']⟩
  | some bC =>
    exact ⟨compareFound aC' bC, by simp [nodeFor, haC', hb, compareFound, hname']⟩

theorem flatMap_map_name (a b : List ClassInfo) :
    ∀ names : List String, (∀ n ∈ names, n ∈ a.map (fun c => c.name)) →
      ((names.flatMap (nodeFor a b)).map (fun c => c.name)) = names := by
  intro names
  induction names with
  | nil => intro _; rfl
  | cons n rest ih =>
    intro h
    obtain ⟨nd, hnd, hname⟩ := nodeFor_singleton a b n (h n (List.mem_cons_self _ _))
    simp only [List.flatMap_cons, List.map_append, hnd,
      ih (fun m hm => h m (List.mem_cons_of_mem _ hm))]
    simp [hname]

theorem flatMap_find?_name (a b : List ClassInfo) :
    ∀ names : List String, (∀ n ∈ names, n ∈ a.map (fun c => c.name)) →
      ∀ n ∈ names,
        (names.flatMap (nodeFor a b)).find? (fun c => c.name == n)
          = (nodeFor a b n).head? := by
  intro names
  induction names with
  | nil => intro _ n hn; simp at hn
  | cons m rest ih =>
    intro h n hn
    obtain ⟨nd, hnd, hname⟩ := nodeFor_singleton a b m (h m (List.mem_cons_self _ _))
    by_cases hmn : nd.name = n
    · have hm : m = n := hname ▸ hmn
      subst hm
      simp [List.flatMap_cons, hnd, List.find?_cons, hmn]
    · have hmn' : m ≠ n := fun he => hmn (he ▸ hname)
      have hrest : n ∈ rest := by
        rcases List.mem_cons.mp hn with h' | h'
        · exact absurd h'.symm hmn'
        · exact h'
      simp only [List.flatMap_cons, hnd, List.cons_append, List.find?_cons]
      have : (nd.name == n) = false := by simp [hmn]
      rw [this]
      exact ih (fun x hx => h x (List.mem_cons_of_mem _ hx)) n hrest

theorem mem_compareParsedClasses (a b : List ClassInfo) (n : String)
    (hn : n ∈ a.map (fun c => c.name)) (nd : ClassComparison)
    (hnd : nd ∈ nodeFor a b n) :
    nd ∈ compareParsedClasses a b := by
  rw [compareParsedClasses, List.mem_flatMap]
  exact ⟨n, (dedupFirst_mem _ _).mpr hn, hnd⟩

end Compare

theorem dedupFirst.go_nodup (seen l : List String) :
    (dedupFirst.go seen l).Nodup := by
  induction l generalizing seen with
  | nil => exact List.nodup_nil
  | cons y ys ih =>
    by_cases hy : y ∈ seen
    · simpa [go, hy] using ih seen
    · have hgo : go seen (y :: ys) = y :: go (y :: seen) ys := by
        simp [go, hy]
      rw [hgo]
      refine List.Nodup.cons ?_ (ih (y :: seen))
      intro hmem
      exact ((go_mem (y :: seen) ys y).mp hmem).2 (List.mem_cons_self _ _)

theorem dedupFirst_nodup (l : List String) : (dedupFirst l).Nodup :=
  dedupFirst.go_nodup [] l

namespace LegacyCompare

open Parser

/-- Result record of the string comparator of part_001. -/
structure CompareOutcome where
  Identical : Bool
  errors : List String
deriving DecidableEq, Repr

/-- Function checkAttributeSignature of the string comparator, which
returns pairs of a signature tuple and a count.  The JSON.stringify
comparison applied to two results of this function in the source agrees
with structural list equality, because the serialization of these
string-and-number arrays is injective. -/
def checkAttributeSignature (attributes : List AttributeInfo) :
    List ((String × String) × Nat) :=
  (dedupFirst (attributes.map (fun a => a.modifier ++ "|" ++ a.type))).map
    (fun signature =>
      let parts := splitBar signature
      let sigMod := parts.getD 0 ""
      let sigType := parts.getD 1 ""
      ((sigMod, sigType),
        (attributes.filter
          (fun a => a.modifier == sigMod && a.type == sigType)).length))

/-- Function checkMethodSignature of the string comparator. -/
def checkMethodSignature (methods : List MethodInfo) :
    List ((String × String × String) × Nat) :=
  (dedupFirst (methods.map (fun m =>
      m.modifier ++ "|" ++ m.returnType ++ "|"
        ++ String.intercalate "," (m.parameters.map (fun p => p.type))))).map
    (fun signature =>
      let parts := splitBar signature
      let sigMod := parts.getD 0 ""
      let sigReturn := parts.getD 1 ""
      let sigParam := parts.getD 2 ""
      ((sigMod, sigReturn, sigParam),
        (methods.filter (fun m =>
          m.modifier == sigMod && m.returnType == sigReturn &&
            String.intercalate ","
              (m.parameters.map (fun p => p.type)) == sigParam)).length))

/-- The attribute-checking block of the string comparator for one class
name: nothing when the two signature lists are equal, otherwise a
header line followed by one line per reference signature that is
missing or has a different count in the candidate. -/
def attrErrors (className : String) (aAttrs bAttrs : List AttributeInfo) :
    List String :=
  let aSig := checkAttributeSignature aAttrs
  let bSig := checkAttributeSignature bAttrs
  if aSig = bSig then []
  else
    ("Attribute mismatch for class " ++ className ++ ": Teacher:["
        ++ toString aAttrs.length ++ "] Student:[" ++ toString bAttrs.length ++ "]")
      :: aSig.flatMap (fun p =>
        match bSig.find? (fun x => x.1.1 == p.1.1 && x.1.2 == p.1.2) with
        | none =>
          ["Attribute " ++ "'" ++ p.1.1 ++ " " ++ p.1.2 ++ "'"
            ++ " missing from class " ++ className ++ " in Student result."]
        | some m =>
          if m.2 ≠ p.2 then
            ["Attribute " ++ "'" ++ p.1.1 ++ " " ++ p.1.2 ++ "'"
              ++ " count mismatch for class " ++ className ++ ": Teacher:["
              ++ toString p.2 ++ "] Student:[" ++ toString m.2 ++ "]"]
          else [])

/-- The method-checking block of the string comparator for one class
name. -/
def methodErrors (className : String) (aMethods bMethods : List MethodInfo) :
    List String :=
  let aSig := checkMethodSignature aMethods
  let bSig := checkMethodSignature bMethods
  if aSig = bSig then []
  else
    ("Method mismatch for class " ++ className ++ ": Teacher:["
        ++ toString aMethods.length ++ "] Student:[" ++ toString bMethods.length ++ "]")
      :: aSig.flatMap (fun p =>
        match bSig.find? (fun x =>
            x.1.1 == p.1.1 && x.1.2.1 == p.1.2.1 && x.1.2.2 == p.1.2.2) with
        | none =>
          ["Method with signature " ++ "'" ++ p.1.1 ++ " " ++ p.1.2.1
            ++ "(" ++ p.1.2.2 ++ ")" ++ "'"
            ++ " missing from class " ++ className ++ " in Student result."]
        | some m =>
          if m.2 ≠ p.2 then
            ["Method with signature " ++ "'" ++ p.1.1 ++ " " ++ p.1.2.1
              ++ "(" ++ p.1.2.2 ++ ")" ++ "'"
              ++ " count mismatch for class " ++ className ++ ": Teacher:["
              ++ toString p.2 ++ "] Student:[" ++ toString m.2 ++ "]"]
          else [])

/-- Function compareParsedClasses of the string comparator: an
unconditional unit-level class-count advisory when the two lists have
different lengths, followed by the per-class checks over the
deduplicated reference class names; the result is identical exactly
when no error was produced. -/
def compareParsedClasses (a b : List ClassInfo) : CompareOutcome :=
  let countErr : List String :=
    if a.length ≠ b.length then
      ["Class number mismatch Teacher:[" ++ toString a.length
        ++ "] Student:[" ++ toString b.length ++ "]"]
    else []
  let classErrs : List String :=
    (dedupFirst (a.map (fun c => c.name))).flatMap (fun className =>
      match a.find? (fun c => c.name == className) with
      | none => []
      | some aClass =>
        match b.find? (fun c => c.name == className) with
        | none => ["Class " ++ className ++ " not found in Student result."]
        | some bClass =>
          attrErrors className aClass.attributes bClass.attributes
            ++ methodErrors className aClass.methods bClass.methods)
  let errors := countErr ++ classErrs
  { Identical := errors.isEmpty, errors := errors }

end LegacyCompare

/-- C1 counterexample: a class present in both lists whose attribute
diff contains a non-ok (red, removed-flavoured) entry still gets overall
color text-green-500 (match), because the loop only ever changes the
node color in the missing-class and inheritance checks.  This refutes
the claim that any non-ok attribute or method entry makes the overall
severity mismatch. -/
theorem compare_severity_counterexample :
    (∀ nd ∈ Compare.compareParsedClasses
        [⟨"X", none, [⟨"public", "int", "x"⟩], []⟩]
        [⟨"X", none, [], []⟩],
      nd.color = "text-green-500") ∧
    (∃ nd ∈ Compare.compareParsedClasses
        [⟨"X", none, [⟨"public", "int", "x"⟩], []⟩]
        [⟨"X", none, [], []⟩],
      ∃ e ∈ nd.attributes, e.color ≠ "text-green-500") := by
  constructor
  · decide
  · decide

/-- C1 (amended): for a class name found in both lists, the emitted
node's overall severity is mismatch (text-red-500) exactly when the two
extends values differ; non-ok attribute or method entries do not affect
the overall severity (a class missing from the candidate list is the
only other red-node case, see the missing-class theorem). -/
theorem compare_severity_inheritance_only (a b : List Parser.ClassInfo)
    (aC bC : Parser.ClassInfo)
    (h1 : a.find? (fun c => c.name == aC.name) = some aC)
    (h2 : b.find? (fun c => c.name == aC.name) = some bC) :
    Compare.compareFound aC bC ∈ Compare.compareParsedClasses a b ∧
    ((Compare.compareFound aC bC).color = "text-red-500"
      ↔ aC.extendsFrom ≠ bC.extendsFrom) ∧
    ((Compare.compareFound aC bC).color = "text-green-500"
      ↔ aC.extendsFrom = bC.extendsFrom) := by
  refine ⟨?_, ?_, ?_⟩
  · apply Compare.mem_compareParsedClasses a b aC.name
    · exact List.mem_map_of_mem _ (List.mem_of_find?_eq_some h1)
    · simp [Compare.nodeFor, h1, h2]
  · by_cases h : aC.extendsFrom = bC.extendsFrom
    · simp [Compare.compareFound, h]
    · simp [Compare.compareFound, h]
  · by_cases h : aC.extendsFrom = bC.extendsFrom
    · simp [Compare.compareFound, h]
    · simp [Compare.compareFound, h]

/-- Witness for the amended C1 theorem at a concrete input with an
inheritance difference: the emitted node is in the output and is red. -/
theorem compare_severity_inheritance_only_witness :
    Compare.compareFound ⟨"X", some "Base", [], []⟩ ⟨"X", none, [], []⟩
      ∈ Compare.compareParsedClasses
        [⟨"X", some "Base", [], []⟩] [⟨"X", none, [], []⟩] ∧
    ((Compare.compareFound ⟨"X", some "Base", [], []⟩ ⟨"X", none, [], []⟩).color
      = "text-red-500" ↔ (some "Base" : Option String) ≠ none) := by
  have h := compare_severity_inheritance_only
    [⟨"X", some "Base", [], []⟩] [⟨"X", none, [], []⟩]
    ⟨"X", some "Base", [], []⟩ ⟨"X", none, [], []⟩ (by decide) (by decide)
  exact ⟨h.1, h.2.1⟩

/-- C2: the found-class branch enumerates exactly one diff entry per
distinct signature of the reference class, for attributes and methods
alike, so signatures present only in the candidate class produce no
entry; in particular, for a reference class X with one public int field
and a candidate X with that field plus an extra private String field,
the attribute diff of X is exactly the single ok entry for the public
int signature. -/
theorem compare_asymmetry :
    (∀ aC bC : Parser.ClassInfo,
      (Compare.compareFound aC bC).attributes.length
        = (Compare.checkAttributeSignature aC.attributes).length ∧
      (Compare.compareFound aC bC).methods.length
        = (Compare.checkMethodSignature aC.methods).length) ∧
    Compare.compareParsedClasses
        [⟨"X", none, [⟨"public", "int", "x"⟩], []⟩]
        [⟨"X", none, [⟨"public", "int", "x"⟩, ⟨"private", "String", "y"⟩], []⟩]
      = [⟨"X", "class", "text-green-500",
          [⟨"+ public int (Count: 1)", "text-green-500", some 1⟩],
          [], none, none⟩] := by
  constructor
  · intro aC bC
    exact ⟨by simp [Compare.compareFound], by simp [Compare.compareFound]⟩
  · decide

/-- C6: a reference class whose name is absent from the candidate list
yields (without any failure) the missing-class node: it is in the
output, fully red, and lists every attribute and method signature of the
reference class as a red added entry carrying that signature's count;
the candidate list is never consulted for it. -/
theorem compare_missing_class (a b : List Parser.ClassInfo)
    (aC : Parser.ClassInfo)
    (h1 : a.find? (fun c => c.name == aC.name) = some aC)
    (h2 : b.find? (fun c => c.name == aC.name) = none) :
    Compare.compareMissing aC ∈ Compare.compareParsedClasses a b ∧
    (Compare.compareMissing aC).color = "text-red-500" ∧
    (Compare.compareMissing aC).attributes
      = (Compare.checkAttributeSignature aC.attributes).map (fun s =>
          ⟨"+ " ++ s.modifier ++ " " ++ s.type
              ++ " (Count: " ++ toString s.count ++ ")",
            "text-red-500", some s.count⟩) ∧
    (Compare.compareMissing aC).methods
      = (Compare.checkMethodSignature aC.methods).map (fun s =>
          ⟨"+ " ++ (if s.modifier ≠ "default" then s.modifier ++ " " else "")
              ++ s.returnType ++ "(" ++ s.parameters
              ++ ") (Count: " ++ toString s.count ++ ")",
            "text-red-500", some s.count⟩) := by
  refine ⟨?_, rfl, rfl, rfl⟩
  apply Compare.mem_compareParsedClasses a b aC.name
  · exact List.mem_map_of_mem _ (List.mem_of_find?_eq_some h1)
  · simp [Compare.nodeFor, h1, h2]

/-- Witness for the missing-class theorem at the concrete input of the
spec's test (A contains Foo, B is empty). -/
theorem compare_missing_class_witness :
    Compare.compareMissing ⟨"Foo", none, [⟨"public", "int", "x"⟩],
        [⟨"public", "void", "m", []⟩]⟩
      ∈ Compare.compareParsedClasses
        [⟨"Foo", none, [⟨"public", "int", "x"⟩], [⟨"public", "void", "m", []⟩]⟩]
        [] ∧
    (Compare.compareMissing ⟨"Foo", none, [⟨"public", "int", "x"⟩],
        [⟨"public", "void", "m", []⟩]⟩).color = "text-red-500" := by
  have h := compare_missing_class
    [⟨"Foo", none, [⟨"public", "int", "x"⟩], [⟨"public", "void", "m", []⟩]⟩]
    []
    ⟨"Foo", none, [⟨"public", "int", "x"⟩], [⟨"public", "void", "m", []⟩]⟩
    (by decide) (by decide)
  exact ⟨h.1, h.2.1⟩

/-- C9: duplicate class names in the reference list collapse to exactly
one node per distinct name, in first-occurrence order (the output name
list is the deduplicated reference name list and has no duplicates), and
the node emitted for a name is computed from the first reference class
and the first candidate class with that name; later duplicates are
ignored. -/
theorem compare_duplicate_names (a b : List Parser.ClassInfo) :
    ((Compare.compareParsedClasses a b).map (fun c => c.name)
      = dedupFirst (a.map (fun c => c.name))) ∧
    ((Compare.compareParsedClasses a b).map (fun c => c.name)).Nodup ∧
    (∀ (n : String) (aC : Parser.ClassInfo),
      a.find? (fun c => c.name == n) = some aC →
      (Compare.compareParsedClasses a b).find? (fun c => c.name == n)
        = some (match b.find? (fun c => c.name == n) with
            | none => Compare.compareMissing aC
            | some bC => Compare.compareFound aC bC)) := by
  have hsub : ∀ n ∈ dedupFirst (a.map (fun c => c.name)),
      n ∈ a.map (fun c => c.name) := fun n hn => (dedupFirst_mem _ _).mp hn
  have hmap := Compare.flatMap_map_name a b _ hsub
  refine ⟨hmap, ?_, ?_⟩
  · rw [show Compare.compareParsedClasses a b
        = (dedupFirst (a.map (fun c => c.name))).flatMap (Compare.nodeFor a b) from rfl,
      hmap]
    exact dedupFirst_nodup _
  · intro n aC h
    have hn : n ∈ a.map (fun c => c.name) := by
      have hp := List.find?_some h
      have := List.mem_of_find?_eq_some h
      refine List.mem_map.mpr ⟨aC, this, by simpa using hp⟩
    have hfind := Compare.flatMap_find?_name a b _ hsub n ((dedupFirst_mem _ _).mpr hn)
    rw [Compare.compareParsedClasses] at *
    rw [hfind]
    simp only [Compare.nodeFor, h]
    cases hb : b.find? (fun c => c.name == n) <;> rfl

/-- Witness for the duplicate-name theorem: two reference classes both
named X; the single emitted node is the missing-class node of the first
one. -/
theorem compare_duplicate_names_witness :
    (Compare.compareParsedClasses
        [⟨"X", none, [⟨"public", "int", "x"⟩], []⟩, ⟨"X", some "B", [], []⟩]
        []).find? (fun c => c.name == "X")
      = some (Compare.compareMissing ⟨"X", none, [⟨"public", "int", "x"⟩], []⟩) := by
  have h := (compare_duplicate_names
    [⟨"X", none, [⟨"public", "int", "x"⟩], []⟩, ⟨"X", some "B", [], []⟩]
    []).2.2 "X" ⟨"X", none, [⟨"public", "int", "x"⟩], []⟩ (by decide)
  exact h

/-- C5: whenever the two class lists have different lengths, the string
comparator's error output contains the unit-level class-count advisory
reporting both lengths, independently of any per-class detail (it is
pushed before the per-class loop runs). -/
theorem compare_count_mismatch_advisory (a b : List Parser.ClassInfo)
    (h : a.length ≠ b.length) :
    ("Class number mismatch Teacher:[" ++ toString a.length
        ++ "] Student:[" ++ toString b.length ++ "]")
      ∈ (LegacyCompare.compareParsedClasses a b).errors := by
  simp only [LegacyCompare.compareParsedClasses, if_pos h]
  exact List.mem_append_left _ (List.mem_cons_self _ _)

/-- Witness for the class-count advisory at a concrete input with one
reference class and no candidate classes. -/
theorem compare_count_mismatch_advisory_witness :
    ("Class number mismatch Teacher:[1] Student:[0]")
      ∈ (LegacyCompare.compareParsedClasses [⟨"X", none, [], []⟩] []).errors := by
  have h := compare_count_mismatch_advisory [⟨"X", none, [], []⟩] [] (by decide)
  simpa using h

/-- C3 counterexample: a source whose first class header B has
unbalanced braces.  The class B is dropped and parsing continues (the
later class A is still extracted), but no advisory error string for B is
appended to the ParseOutcome error list, which stays empty: the source
only writes the unmatched-braces diagnostic to the console. -/
theorem unbalanced_braces_counterexample :
    ((Parser.parseJavaClasses "class B \x7b class A \x7b \x7d").classes.map
      (fun c => c.name) = ["A"]) ∧
    (Parser.parseJavaClasses "class B \x7b class A \x7b \x7d").errors = [] := by
  exact ⟨by decide, by decide⟩

/-- C3 (amended): a class whose brace depth never returns to zero is
dropped and parsing continues with the remaining classes, but the
advisory for it goes to the console only: the ParseOutcome error list is
always either empty or the single no-class-declarations advisory, so it
never names a dropped class. -/
theorem unbalanced_braces_dropped :
    (∀ s : String, (Parser.parseJavaClasses s).errors = []
      ∨ (Parser.parseJavaClasses s).errors = ["No class declarations found."]) ∧
    (Parser.parseJavaClasses "class B \x7b class A \x7b \x7d").classes
      = [⟨"A", none, [], []⟩] := by
  constructor
  · intro s
    by_cases h : (Parser.extractClassBodies s).isEmpty
    · right; simp [Parser.parseJavaClasses, h]
    · left; simp [Parser.parseJavaClasses, h]
  · decide

/-- C4: the lookahead pattern of the method regex rejects a bare
constructor (no token before the parenthesis can serve as both return
type and name), but a constructor with an explicit access modifier is
captured after the modifier branch fails: the modifier keyword itself is
re-read as the return type and the class name as the method name,
contradicting the comment in the source that constructors are not
captured.  The first conjunct evaluates the failing input. -/
theorem constructor_with_modifier_captured :
    Parser.parseJavaMethods "public Foo() \x7b \x7d"
      = [⟨"default", "public", "Foo", []⟩] ∧
    Parser.parseJavaMethods "Foo() \x7b \x7d" = [] := by
  exact ⟨by decide, by decide⟩

namespace Parser

theorem wordChar_typeChar {c : Char} (h : wordChar c = true) :
    typeChar c = true := by
  simp [typeChar, h]

theorem wsChar_cases {c : Char} (h : wsChar c = true) :
    c = ' ' ∨ c = '\t' ∨ c = '\n' ∨ c = '\r' ∨ c = '\x0b' ∨ c = '\x0c' := by
  simp [wsChar] at h
  tauto

theorem wsChar_not_typeChar {c : Char} (h : wsChar c = true) :
    typeChar c = false := by
  rcases wsChar_cases h with rfl | rfl | rfl | rfl | rfl | rfl <;> decide

theorem typeChar_not_ws {c : Char} (h : typeChar c = true) :
    wsChar c = false := by
  cases hw : wsChar c with
  | false => rfl
  | true => exact absurd h (by simp [wsChar_not_typeChar hw])

theorem wordChar_not_ws {c : Char} (h : wordChar c = true) :
    wsChar c = false :=
  typeChar_not_ws (wordChar_typeChar h)

theorem takeWhile_all_append {p : Char → Bool} (l : List Char) (c : Char)
    (r : List Char) (hl : ∀ x ∈ l, p x = true) (hc : p c = false) :
    (l ++ c :: r).takeWhile p = l ∧ (l ++ c :: r).dropWhile p = c :: r := by
  induction l with
  | nil => simp [List.takeWhile_cons, List.dropWhile_cons, hc]
  | cons a l' ih =>
    have ha : p a = true := hl a (List.mem_cons_self _ _)
    have := ih (fun x hx => hl x (List.mem_cons_of_mem _ hx))
    simp [List.takeWhile_cons, List.dropWhile_cons, ha, this.1, this.2]

/-- The body text of one local declaration with its optional modifier
prefix, followed by the rest of the class body: for an explicit
modifier the keyword and one space, then the type token, one space, the
name token, the semicolon, and the remaining text. -/
def attrDeclAt (mo : String) (t n post : List Char) : List Char :=
  (if mo = "default" then [] else mo.data ++ [' ']) ++ (t ++ ' ' :: (n ++ ';' :: post))

theorem matchAttrCore_canon (t n post : List Char)
    (ht : t ≠ []) (ht2 : ∀ c ∈ t, typeChar c = true)
    (hn : n ≠ []) (hn2 : ∀ c ∈ n, wordChar c = true) :
    matchAttrCore (t ++ ' ' :: (n ++ ';' :: post))
      = some (⟨t⟩, ⟨n⟩, post) := by
  obtain ⟨nh, n', rfl⟩ := List.exists_cons_of_ne_nil hn
  have hnh : wsChar nh = false :=
    wordChar_not_ws (hn2 nh (List.mem_cons_self _ _))
  have h1 := takeWhile_all_append (p := typeChar) t ' '
    (nh :: (n' ++ ';' :: post)) ht2 (by decide)
  have h2 := takeWhile_all_append (p := wsChar) [' '] nh
    (n' ++ ';' :: post) (by intro x hx; simp at hx; subst hx; decide) hnh
  simp only [List.singleton_append] at h2
  have h3 := takeWhile_all_append (p := wordChar) (nh :: n') ';'
    post hn2 (by decide)
  simp only [List.cons_append] at h3
  have htne : t.isEmpty = false := by
    cases t with
    | nil => exact absurd rfl ht
    | cons a l => rfl
  have hsemi : wsChar ';' = false := by decide
  simp only [List.cons_append, matchAttrCore, h1.1, h1.2, h2.1, h2.2,
    h3.1, h3.2, htne, List.isEmpty_cons, List.dropWhile_cons, hsemi,
    Bool.false_eq_true, if_false, ite_false]

theorem matchAttrCore_stop (n post : List Char)
    (hn2 : ∀ c ∈ n, wordChar c = true) :
    matchAttrCore (n ++ ';' :: post) = none := by
  cases n with
  | nil =>
    simp [matchAttrCore, List.takeWhile_cons, show typeChar ';' = false from by decide]
  | cons nh n' =>
    have h1 := takeWhile_all_append (p := typeChar) (nh :: n') ';' post
      (fun c hc => wordChar_typeChar (hn2 c hc)) (by decide)
    simp only [List.cons_append] at h1
    have hne : (nh :: n').isEmpty = false := rfl
    simp [matchAttrCore, h1.1, h1.2, hne, List.takeWhile_cons,
      show wsChar ';' = false from by decide]

theorem tryMod_canon (lit : List Char) (hlitw : ∀ c ∈ lit, wordChar c = true)
    (t n post : List Char) (ht2 : ∀ c ∈ t, typeChar c = true)
    (hn2 : ∀ c ∈ n, wordChar c = true) :
    tryMod lit (t ++ ' ' :: (n ++ ';' :: post)) = none ∨
      (t = lit ∧
        tryMod lit (t ++ ' ' :: (n ++ ';' :: post)) = some (n ++ ';' :: post)) := by
  by_cases htake : (t ++ ' ' :: (n ++ ';' :: post)).take lit.length = lit
  · rcases Nat.lt_or_ge t.length lit.length with hlt | hge
    · -- the literal would have to contain the space after the type token
      exfalso
      have hsp : ' ' ∈ lit := by
        rw [← htake, List.take_append_eq_append_take]
        refine List.mem_append_right _ ?_
        obtain ⟨k, hk⟩ : ∃ k, lit.length - t.length = k + 1 :=
          ⟨lit.length - t.length - 1, by omega⟩
        rw [hk]
        exact List.mem_cons_self _ _
      have := hlitw ' ' hsp
      simp [wordChar] at this
    · have htake2 : t.take lit.length = lit := by
        have htakeC := htake
        rw [List.take_append_of_le_length hge] at htakeC
        exact htakeC
      by_cases heq : t.length = lit.length
      · have hteq : t = lit := by
          have h' := htake2
          rw [← heq, List.take_length] at h'
          exact h'
        right
        refine ⟨hteq, ?_⟩
        subst hteq
        obtain ⟨c₀, rest₀, hsplit, hc₀⟩ :
            ∃ c₀ rest₀, n ++ ';' :: post = c₀ :: rest₀ ∧ wsChar c₀ = false := by
          cases n with
          | nil => exact ⟨';', post, rfl, by decide⟩
          | cons nh n' =>
            exact ⟨nh, n' ++ ';' :: post, rfl,
              wordChar_not_ws (hn2 nh (List.mem_cons_self _ _))⟩
        rw [hsplit]
        simp only [tryMod, List.take_left, if_pos rfl, List.drop_left]
        simp [List.takeWhile_cons, List.dropWhile_cons, hc₀,
          show wsChar ' ' = true from by decide]
      · -- the literal is a strict prefix of the type token: no whitespace follows
        left
        have hlt2 : lit.length < t.length := by omega
        have hdrop : (t ++ ' ' :: (n ++ ';' :: post)).drop lit.length
            = t.drop lit.length ++ ' ' :: (n ++ ';' :: post) :=
          List.drop_append_of_le_length hge
        have hne : t.drop lit.length ≠ [] := by
          intro hcon
          have := congrArg List.length hcon
          simp [List.length_drop] at this
          omega
        obtain ⟨d, ds, hd⟩ := List.exists_cons_of_ne_nil hne
        have hdmem : d ∈ t :=
          List.drop_subset _ _ (hd ▸ List.mem_cons_self _ _)
        have hdws : wsChar d = false := typeChar_not_ws (ht2 d hdmem)
        simp only [tryMod, if_pos htake, hdrop, hd, List.cons_append]
        simp [List.takeWhile_cons, hdws]
  · simp [tryMod, htake]

theorem tryMod_exact (lit : List Char) (c₀ : Char) (rest : List Char)
    (hc₀ : wsChar c₀ = false) :
    tryMod lit (lit ++ ' ' :: c₀ :: rest) = some (c₀ :: rest) := by
  simp only [tryMod, List.take_left, if_pos rfl, List.drop_left]
  simp [List.takeWhile_cons, List.dropWhile_cons, hc₀,
    show wsChar ' ' = true from by decide]

theorem matchAttrAt_decl (mo : String) (t n post : List Char)
    (hm : mo = "default" ∨ mo = "public" ∨ mo = "private" ∨ mo = "protected")
    (ht : t ≠ []) (ht2 : ∀ c ∈ t, typeChar c = true)
    (hn : n ≠ []) (hn2 : ∀ c ∈ n, wordChar c = true) :
    matchAttrAt (attrDeclAt mo t n post) = some (⟨mo, ⟨t⟩, ⟨n⟩⟩, post) := by
  have hcore := matchAttrCore_canon t n post ht ht2 hn hn2
  have hstop := matchAttrCore_stop n post hn2
  obtain ⟨th, t', rfl⟩ := List.exists_cons_of_ne_nil ht
  have hthws : wsChar th = false :=
    typeChar_not_ws (ht2 th (List.mem_cons_self _ _))
  rcases hm with rfl | rfl | rfl | rfl
  · -- no modifier prefix: the three alternatives either fail or capture the
    -- type token itself, and in the latter case the continuation fails, so
    -- the fallback without the group applies
    simp only [attrDeclAt, if_pos rfl, List.nil_append]
    simp only [List.cons_append] at hcore
    rcases tryMod_canon "public".data (by decide) (th :: t') n post ht2 hn2
      with hpub | ⟨hteq, hpub⟩
    · rcases tryMod_canon "private".data (by decide) (th :: t') n post ht2 hn2
        with hpriv | ⟨hteq, hpriv⟩
      · rcases tryMod_canon "protected".data (by decide) (th :: t') n post ht2 hn2
          with hprot | ⟨hteq, hprot⟩
        · simp only [List.cons_append] at hpub hpriv hprot
          simp [matchAttrAt, tryMods, hpub, hpriv, hprot, hcore]
        · simp only [List.cons_append] at hpub hpriv hprot
          simp [matchAttrAt, tryMods, hpub, hpriv, hprot, hstop, hcore]
      · simp only [List.cons_append] at hpub hpriv
        simp [matchAttrAt, tryMods, hpub, hpriv, hstop, hcore]
    · simp only [List.cons_append] at hpub
      simp [matchAttrAt, tryMods, hpub, hstop, hcore]
  · -- explicit public modifier
    have hx := tryMod_exact "public".data th (t' ++ ' ' :: (n ++ ';' :: post)) hthws
    have hne : ("public" : String) ≠ "default" := by decide
    have hdpub : "public".data = ['p', 'u', 'b', 'l', 'i', 'c'] := rfl
    simp only [attrDeclAt, if_neg hne]
    simp only [List.cons_append] at hcore
    simp only [hdpub, List.append_assoc, List.singleton_append,
      List.cons_append, List.nil_append] at hx ⊢
    simp only [matchAttrAt, tryMods, hdpub, hx, hcore]
  · -- explicit private modifier: the public alternative fails on the take
    have hskip : tryMod "public".data
        ("private".data ++ ' ' :: (th :: t' ++ ' ' :: (n ++ ';' :: post))) = none := by
      have h6 : ("public".data).length ≤ ("private".data).length := by decide
      simp only [tryMod, List.take_append_of_le_length h6]
      simp
    have hx := tryMod_exact "private".data th (t' ++ ' ' :: (n ++ ';' :: post)) hthws
    have hne : ("private" : String) ≠ "default" := by decide
    have hdpub : "public".data = ['p', 'u', 'b', 'l', 'i', 'c'] := rfl
    have hdpriv : "private".data = ['p', 'r', 'i', 'v', 'a', 't', 'e'] := rfl
    simp only [attrDeclAt, if_neg hne]
    simp only [List.cons_append] at hcore
    simp only [hdpub, hdpriv, List.append_assoc, List.singleton_append,
      List.cons_append, List.nil_append] at hskip hx ⊢
    simp only [matchAttrAt, tryMods, hdpub, hdpriv, hskip, hx, hcore]
  · -- explicit protected modifier: the shorter alternatives fail on the take
    have hskip1 : tryMod "public".data
        ("protected".data ++ ' ' :: (th :: t' ++ ' ' :: (n ++ ';' :: post))) = none := by
      have h6 : ("public".data).length ≤ ("protected".data).length := by decide
      simp only [tryMod, List.take_append_of_le_length h6]
      simp
    have hskip2 : tryMod "private".data
        ("protected".data ++ ' ' :: (th :: t' ++ ' ' :: (n ++ ';' :: post))) = none := by
      have h7 : ("private".data).length ≤ ("protected".data).length := by decide
      simp only [tryMod, List.take_append_of_le_length h7]
      simp
    have hx := tryMod_exact "protected".data th (t' ++ ' ' :: (n ++ ';' :: post)) hthws
    have hne : ("protected" : String) ≠ "default" := by decide
    have hdpub : "public".data = ['p', 'u', 'b', 'l', 'i', 'c'] := rfl
    have hdpriv : "private".data = ['p', 'r', 'i', 'v', 'a', 't', 'e'] := rfl
    have hdprot : "protected".data = ['p', 'r', 'o', 't', 'e', 'c', 't', 'e', 'd'] := rfl
    simp only [attrDeclAt, if_neg hne]
    simp only [List.cons_append] at hcore
    simp only [hdpub, hdpriv, hdprot, List.append_assoc, List.singleton_append,
      List.cons_append, List.nil_append] at hskip1 hskip2 hx ⊢
    simp only [matchAttrAt, tryMods, hdpub, hdpriv, hdprot, hskip1, hskip2, hx, hcore]

/-- Characters the attribute regex can consume: type-token characters,
whitespace, and the semicolon. -/
def attrChar (c : Char) : Prop :=
  typeChar c = true ∨ wsChar c = true ∨ c = ';'

theorem tryMod_consumed {lit cs r : List Char}
    (hlitw : ∀ c ∈ lit, wordChar c = true) (h : tryMod lit cs = some r) :
    ∃ u, cs = u ++ r ∧ ∀ c ∈ u, attrChar c := by
  by_cases htake : cs.take lit.length = lit
  · simp only [tryMod, if_pos htake] at h
    by_cases hws : ((cs.drop lit.length).takeWhile wsChar).isEmpty
    · simp [hws] at h
    · simp only [hws, Bool.false_eq_true, if_false] at h
      refine ⟨lit ++ (cs.drop lit.length).takeWhile wsChar, ?_, ?_⟩
      · have hr : (cs.drop lit.length).dropWhile wsChar = r := by
          simpa using h
        calc cs = cs.take lit.length ++ cs.drop lit.length :=
              (List.take_append_drop _ _).symm
          _ = lit ++ ((cs.drop lit.length).takeWhile wsChar
                ++ (cs.drop lit.length).dropWhile wsChar) := by
              rw [htake, List.takeWhile_append_dropWhile]
          _ = (lit ++ (cs.drop lit.length).takeWhile wsChar) ++ r := by
              rw [hr, List.append_assoc]
      · intro c hc
        rcases List.mem_append.mp hc with hc | hc
        · exact Or.inl (wordChar_typeChar (hlitw c hc))
        · exact Or.inr (Or.inl (List.mem_takeWhile_imp hc))
  · simp [tryMod, htake] at h

theorem tryMods_consumed {cs r : List Char} {mo : String}
    (h : tryMods cs = some (mo, r)) :
    ∃ u, cs = u ++ r ∧ ∀ c ∈ u, attrChar c := by
  simp only [tryMods] at h
  cases h1 : tryMod "public".data cs with
  | some x =>
    rw [h1] at h
    simp only [Option.some.injEq, Prod.mk.injEq] at h
    exact h.2 ▸ tryMod_consumed (by decide) h1
  | none =>
    rw [h1] at h
    cases h2 : tryMod "private".data cs with
    | some x =>
      rw [h2] at h
      simp only [Option.some.injEq, Prod.mk.injEq] at h
      exact h.2 ▸ tryMod_consumed (by decide) h2
    | none =>
      rw [h2] at h
      cases h3 : tryMod "protected".data cs with
      | some x =>
        rw [h3] at h
        simp only [Option.some.injEq, Prod.mk.injEq] at h
        exact h.2 ▸ tryMod_consumed (by decide) h3
      | none => rw [h3] at h; exact absurd h (by simp)

theorem matchAttrCore_consumed {cs : List Char} {t n : String}
    {rest : List Char} (h : matchAttrCore cs = some (t, n, rest)) :
    ∃ u, cs = u ++ rest ∧ u ≠ [] ∧ ∀ c ∈ u, attrChar c := by
  simp only [matchAttrCore] at h
  by_cases h1 : (cs.takeWhile typeChar).isEmpty
  · simp [h1] at h
  · simp only [h1, Bool.false_eq_true, if_false] at h
    by_cases h2 : ((cs.dropWhile typeChar).takeWhile wsChar).isEmpty
    · simp [h2] at h
    · simp only [h2, Bool.false_eq_true, if_false] at h
      by_cases h3 :
          (((cs.dropWhile typeChar).dropWhile wsChar).takeWhile wordChar).isEmpty
      · simp [h3] at h
      · simp only [h3, Bool.false_eq_true, if_false] at h
        split at h
        · next rest' heq =>
            simp only [Option.some.injEq, Prod.mk.injEq] at h
            obtain ⟨-, -, hrest⟩ := h
            subst hrest
            refine ⟨cs.takeWhile typeChar
              ++ ((cs.dropWhile typeChar).takeWhile wsChar
              ++ (((cs.dropWhile typeChar).dropWhile wsChar).takeWhile wordChar
              ++ ((((cs.dropWhile typeChar).dropWhile wsChar).dropWhile
                    wordChar).takeWhile wsChar ++ [';']))), ?_, ?_, ?_⟩
            · simp only [List.append_assoc, List.singleton_append]
              rw [← heq, List.takeWhile_append_dropWhile,
                List.takeWhile_append_dropWhile,
                List.takeWhile_append_dropWhile,
                List.takeWhile_append_dropWhile]
            · intro hcon
              have h0 : cs.takeWhile typeChar = [] :=
                (List.append_eq_nil.mp hcon).1
              rw [h0] at h1
              exact h1 rfl
            · intro c hc
              simp only [List.mem_append, List.mem_singleton] at hc
              rcases hc with hc | hc | hc | hc | hc
              · exact Or.inl (List.mem_takeWhile_imp hc)
              · exact Or.inr (Or.inl (List.mem_takeWhile_imp hc))
              · exact Or.inl (wordChar_typeChar (List.mem_takeWhile_imp hc))
              · exact Or.inr (Or.inl (List.mem_takeWhile_imp hc))
              · exact Or.inr (Or.inr hc)
        · exact absurd h (by simp)

theorem matchAttrAt_consumed {cs : List Char} {a : AttributeInfo}
    {rest : List Char} (h : matchAttrAt cs = some (a, rest)) :
    ∃ u, cs = u ++ rest ∧ u ≠ [] ∧ ∀ c ∈ u, attrChar c := by
  simp only [matchAttrAt] at h
  cases hmods : tryMods cs with
  | none =>
    rw [hmods] at h
    cases hcore : matchAttrCore cs with
    | none => rw [hcore] at h; exact absurd h (by simp)
    | some x =>
      obtain ⟨t, n, r⟩ := x
      rw [hcore] at h
      simp only [Option.some.injEq, Prod.mk.injEq] at h
      exact h.2 ▸ matchAttrCore_consumed hcore
  | some x =>
    obtain ⟨mo, r⟩ := x
    rw [hmods] at h
    simp only [] at h
    cases hcore : matchAttrCore r with
    | some y =>
      obtain ⟨t, n, r₂⟩ := y
      rw [hcore] at h
      simp only [Option.some.injEq, Prod.mk.injEq] at h
      obtain ⟨u1, hu1, hc1⟩ := tryMods_consumed hmods
      obtain ⟨u2, hu2, hu2ne, hc2⟩ := matchAttrCore_consumed hcore
      refine ⟨u1 ++ u2, ?_, ?_, ?_⟩
      · rw [hu1, hu2, ← h.2, List.append_assoc]
      · intro hcon
        exact hu2ne (List.append_eq_nil.mp hcon).2
      · intro c hc
        rcases List.mem_append.mp hc with hc | hc
        · exact hc1 c hc
        · exact hc2 c hc
    | none =>
      rw [hcore] at h
      cases hcore2 : matchAttrCore cs with
      | none => rw [hcore2] at h; exact absurd h (by simp)
      | some y =>
        obtain ⟨t, n, r₂⟩ := y
        rw [hcore2] at h
        simp only [Option.some.injEq, Prod.mk.injEq] at h
        exact h.2 ▸ matchAttrCore_consumed hcore2

theorem matchAttrAt_none_head {c : Char} (cs : List Char)
    (hc : typeChar c = false) : matchAttrAt (c :: cs) = none := by
  have hcore : matchAttrCore (c :: cs) = none := by
    simp [matchAttrCore, List.takeWhile_cons, hc]
  have htm : ∀ lit : List Char, lit ≠ [] → (∀ x ∈ lit, wordChar x = true) →
      tryMod lit (c :: cs) = none := by
    intro lit hne hw
    obtain ⟨lh, lt, rfl⟩ := List.exists_cons_of_ne_nil hne
    by_cases ht : (c :: cs).take (lh :: lt).length = lh :: lt
    · exfalso
      rw [List.length_cons, List.take_succ_cons] at ht
      have hch : c = lh := (List.cons.injEq _ _ _ _ ▸ ht).1
      have := wordChar_typeChar (hw lh (List.mem_cons_self _ _))
      rw [← hch] at this
      rw [this] at hc
      exact Bool.true_eq_false.mp hc
    · simp only [tryMod]
      rw [if_neg ht]
  simp [matchAttrAt, tryMods, htm "public".data (by decide) (by decide),
    htm "private".data (by decide) (by decide),
    htm "protected".data (by decide) (by decide), hcore]

theorem attrDeclAt_ne_nil (mo : String) (t n post : List Char) :
    attrDeclAt mo t n post ≠ [] := by
  intro h
  have h2 := (List.append_eq_nil.mp h).2
  have h3 := (List.append_eq_nil.mp h2).2
  exact absurd h3 (by simp)

theorem scanAttrs_ws (mo : String) (t n post : List Char)
    (hm : mo = "default" ∨ mo = "public" ∨ mo = "private" ∨ mo = "protected")
    (ht : t ≠ []) (ht2 : ∀ c ∈ t, typeChar c = true)
    (htr : (⟨t⟩ : String) ≠ "return")
    (hn : n ≠ []) (hn2 : ∀ c ∈ n, wordChar c = true) :
    ∀ (ws' : List Char), (∀ c ∈ ws', wsChar c = true) →
    ∀ fuel, (ws' ++ attrDeclAt mo t n post).length ≤ fuel →
      (⟨mo, ⟨t⟩, ⟨n⟩⟩ : AttributeInfo)
        ∈ scanAttrs fuel (ws' ++ attrDeclAt mo t n post) := by
  intro ws'
  induction ws' with
  | nil =>
    intro _ fuel hfuel
    simp only [List.nil_append] at hfuel ⊢
    obtain ⟨c, cs₀, hsplit⟩ :=
      List.exists_cons_of_ne_nil (attrDeclAt_ne_nil mo t n post)
    cases fuel with
    | zero =>
      exfalso
      rw [hsplit] at hfuel
      simp at hfuel
    | succ f =>
      have hmatch := matchAttrAt_decl mo t n post hm ht ht2 hn hn2
      rw [hsplit] at hmatch ⊢
      simp only [scanAttrs, hmatch]
      simp [htr]
  | cons w ws'' ih =>
    intro hw fuel hfuel
    have hnone := matchAttrAt_none_head (ws'' ++ attrDeclAt mo t n post)
      (wsChar_not_typeChar (hw w (List.mem_cons_self _ _)))
    cases fuel with
    | zero => simp at hfuel
    | succ f =>
      have hstep : scanAttrs (f + 1) ((w :: ws'') ++ attrDeclAt mo t n post)
          = scanAttrs f (ws'' ++ attrDeclAt mo t n post) := by
        rw [List.cons_append]
        simp only [scanAttrs]
        rw [hnone]
      rw [hstep]
      refine ih (fun c hc => hw c (List.mem_cons_of_mem _ hc)) f ?_
      have : ((w :: ws'') ++ attrDeclAt mo t n post).length ≤ f + 1 := hfuel
      simp only [List.cons_append, List.length_cons] at this
      omega

theorem scanAttrs_pre (mo : String) (t n post wsrun : List Char)
    (hm : mo = "default" ∨ mo = "public" ∨ mo = "private" ∨ mo = "protected")
    (ht : t ≠ []) (ht2 : ∀ c ∈ t, typeChar c = true)
    (htr : (⟨t⟩ : String) ≠ "return")
    (hn : n ≠ []) (hn2 : ∀ c ∈ n, wordChar c = true)
    (hw : ∀ c ∈ wsrun, wsChar c = true) :
    ∀ fuel preA,
      (preA ++ '{' :: (wsrun ++ attrDeclAt mo t n post)).length ≤ fuel →
      (⟨mo, ⟨t⟩, ⟨n⟩⟩ : AttributeInfo)
        ∈ scanAttrs fuel (preA ++ '{' :: (wsrun ++ attrDeclAt mo t n post)) := by
  intro fuel
  induction fuel using Nat.strong_induction_on with
  | _ fuel ih =>
    intro preA hfuel
    cases fuel with
    | zero =>
      exfalso
      have h0 : (preA ++ '{' :: (wsrun ++ attrDeclAt mo t n post)).length = 0 :=
        Nat.le_zero.mp hfuel
      simp at h0
    | succ f =>
      cases preA with
      | nil =>
        have hnone := matchAttrAt_none_head (wsrun ++ attrDeclAt mo t n post)
          (show typeChar '{' = false by decide)
        simp only [List.nil_append, scanAttrs]
        rw [hnone]
        refine scanAttrs_ws mo t n post hm ht ht2 htr hn hn2 wsrun hw f ?_
        have : ([] ++ '{' :: (wsrun ++ attrDeclAt mo t n post)).length ≤ f + 1 :=
          hfuel
        simp only [List.nil_append, List.length_cons] at this
        omega
      | cons p preA' =>
        rw [List.cons_append]
        cases hmatch : matchAttrAt
            (p :: (preA' ++ '{' :: (wsrun ++ attrDeclAt mo t n post))) with
        | none =>
          simp only [scanAttrs]
          rw [hmatch]
          refine ih f (Nat.lt_succ_self _) preA' ?_
          have : ((p :: preA')
              ++ '{' :: (wsrun ++ attrDeclAt mo t n post)).length ≤ f + 1 := hfuel
          simp only [List.cons_append, List.length_cons] at this
          simp only [List.length_append, List.length_cons] at this ⊢
          omega
        | some x =>
          obtain ⟨a, rest⟩ := x
          obtain ⟨u, hu, hune, hchar⟩ := matchAttrAt_consumed hmatch
          have hbrace : '{' ∉ u := by
            intro hc
            rcases hchar '{' hc with h | h | h
            · exact absurd h (by decide)
            · exact absurd h (by decide)
            · exact absurd h (by decide)
          have hulen : u.length ≤ (p :: preA').length := by
            by_contra hgt
            push_neg at hgt
            have hmem : '{' ∈ u := by
              have hu2 : u = ((p :: preA')
                  ++ '{' :: (wsrun ++ attrDeclAt mo t n post)).take u.length := by
                rw [← List.cons_append] at hu
                rw [hu, List.take_left]
              rw [hu2, List.take_append_eq_append_take]
              refine List.mem_append_right _ ?_
              obtain ⟨k, hk⟩ : ∃ k, u.length - (p :: preA').length = k + 1 :=
                ⟨u.length - (p :: preA').length - 1, by omega⟩
              rw [hk, List.take_succ_cons]
              exact List.mem_cons_self _ _
            exact hbrace hmem
          have hrest : rest = (p :: preA').drop u.length
              ++ '{' :: (wsrun ++ attrDeclAt mo t n post) := by
            have h1 : rest = ((p :: preA')
                ++ '{' :: (wsrun ++ attrDeclAt mo t n post)).drop u.length := by
              rw [← List.cons_append] at hu
              rw [hu, List.drop_left]
            rw [h1, List.drop_append_eq_append_drop,
              Nat.sub_eq_zero_of_le hulen, List.drop_zero]
          have hrlen : rest.length ≤ f := by
            have hlen := congrArg List.length hu
            have hup : 1 ≤ u.length := List.length_pos.mpr hune
            have hful : (p :: (preA'
                ++ '{' :: (wsrun ++ attrDeclAt mo t n post))).length ≤ f + 1 := by
              rw [← List.cons_append]
              exact hfuel
            simp only [List.length_cons, List.length_append] at hlen hful
            omega
          simp only [scanAttrs]
          rw [hmatch]
          refine List.mem_append_right _ ?_
          rw [hrest]
          refine ih f (Nat.lt_succ_self _) ((p :: preA').drop u.length) ?_
          rw [← hrest]
          exact hrlen

end Parser

/-- C10: the attribute parser scans the whole class body including
method bodies.  For every class body consisting of any prefix, an
opening brace, optional whitespace, a local declaration of the shape of
an optional access modifier, a type token, a space, a name token and a
semicolon, and any remaining text, parseJavaAttributes returns that
declaration as an attribute record of the class, provided the captured
type token is not the literal return (the regex works on the flat body
text with no brace awareness, so it cannot tell fields from locals). -/
theorem parseJavaAttributes_scans_method_bodies
    (preA wsrun post : List Char) (mo : String) (t n : List Char)
    (hm : mo = "default" ∨ mo = "public" ∨ mo = "private" ∨ mo = "protected")
    (ht : t ≠ []) (ht2 : ∀ c ∈ t, Parser.typeChar c = true)
    (htr : (⟨t⟩ : String) ≠ "return")
    (hn : n ≠ []) (hn2 : ∀ c ∈ n, Parser.wordChar c = true)
    (hw : ∀ c ∈ wsrun, Parser.wsChar c = true) :
    (⟨mo, ⟨t⟩, ⟨n⟩⟩ : Parser.AttributeInfo) ∈
      Parser.parseJavaAttributes
        ⟨preA ++ '{' :: (wsrun ++ Parser.attrDeclAt mo t n post)⟩ := by
  exact Parser.scanAttrs_pre mo t n post wsrun hm ht ht2 htr hn hn2 hw
    (preA ++ '{' :: (wsrun ++ Parser.attrDeclAt mo t n post)).length preA le_rfl

/-- Witness for the method-body scan theorem: the class body of a class
with one method whose body declares a local int variable; the local is
reported as an attribute of the class. -/
theorem parseJavaAttributes_scans_method_bodies_witness :
    (⟨"default", "int", "x"⟩ : Parser.AttributeInfo) ∈
      Parser.parseJavaAttributes "void m() \x7b int x; \x7d" := by
  have h := parseJavaAttributes_scans_method_bodies
    "void m() ".data [' '] (" \x7d".data) "default" "int".data "x".data
    (Or.inl rfl) (by decide) (by decide) (by decide) (by decide) (by decide)
    (by decide)
  have heq : (⟨"void m() ".data ++ '{' :: ([' ']
      ++ Parser.attrDeclAt "default" "int".data "x".data (" \x7d".data))⟩ : String)
      = "void m() \x7b int x; \x7d" := by decide
  rw [heq] at h
  exact h

